import Mathlib

/-!
Verification of the RealTimeAVPlayer playback core.

This file gives a shallow embedding, in Lean 4, of the pure computational
content of the player sources:

* the A/V sync-band delay adjustment of Player::renderLoop (player.cpp);
* the frame queue of StreamSource (stream_source.cpp);
* the PCM ring buffer, audio clock, volume control and producer loop of
  AudioPlayer (audio_player.cpp);
* the open/close control paths of Player and the seek loop of StreamSource.

Machine doubles are embedded as rationals: every floating-point operation
performed by the embedded code paths (scaling by powers of two, comparison
against small integer constants, addition of exactly representable values)
is exact on the inputs considered, so the rational model is faithful.
Machine integers (int64) are embedded as unbounded integers, with the
sentinel AV_NOPTS_VALUE kept explicit; the positions of the PCM ring are
uint64 counters far from overflow and are embedded as naturals.
-/

namespace RTAV

/-! ### Global constants (player.cpp lines 24-28, libavutil) -/

/-- libavutil: AV_TIME_BASE = 1000000 (microseconds per second). -/
def AV_TIME_BASE : ℤ := 1000000

/-- libavutil: AV_NOPTS_VALUE = INT64_MIN. -/
def AV_NOPTS_VALUE : ℤ := -(2 ^ 63)

/-- player.cpp line 25: static_cast of 0.04 * AV_TIME_BASE is 40000. -/
def AV_SYNC_THRESHOLD_MIN : ℤ := 40000

/-- player.cpp line 26: static_cast of 0.1 * AV_TIME_BASE is 100000. -/
def AV_SYNC_THRESHOLD_MAX : ℤ := 100000

/-- player.cpp line 27: static_cast of 0.2 * AV_TIME_BASE is 200000. -/
def AV_SYNC_FRAMEDUP_THRESHOLD : ℤ := 200000

/-! ### A/V sync bands (Player::renderLoop, player.cpp lines 338-361) -/

/-- player.cpp line 342: diff in seconds,
`(video_pts - audio_clock) / AV_TIME_BASE` with both timestamps in
microseconds. -/
def syncDiff (video_pts audio_clock : ℤ) : ℚ :=
  ((video_pts - audio_clock : ℤ) : ℚ) / (AV_TIME_BASE : ℚ)

/-- player.cpp lines 353-361, embedded as written: the else-if chain
compares the seconds-valued diff against the raw integer threshold
constants (which are microsecond counts). -/
def adjustDelay (video_pts audio_clock : ℤ) (delay : ℚ) : ℚ :=
  let diff := syncDiff video_pts audio_clock
  if |diff| < (AV_SYNC_THRESHOLD_MIN : ℚ) then delay
  else if |diff| > (AV_SYNC_THRESHOLD_MAX : ℚ) then max 0 (delay + diff)
  else if diff > (AV_SYNC_FRAMEDUP_THRESHOLD : ℚ) then 0
  else delay

/-- The same else-if chain with the thresholds the spec states (and the
source comment at player.cpp line 24 documents): 0.040 s, 0.100 s,
0.200 s. -/
def adjustDelaySpec (video_pts audio_clock : ℤ) (delay : ℚ) : ℚ :=
  let diff := syncDiff video_pts audio_clock
  if |diff| < 40 / 1000 then delay
  else if |diff| > 100 / 1000 then max 0 (delay + diff)
  else if diff > 200 / 1000 then 0
  else delay

/-- Claim C1: the sync-band adjustment leaves the delay unchanged when
the absolute diff is below 0.040 seconds and hard-corrects above 0.100
seconds.  The code compares the seconds-valued diff against the
microsecond threshold constants, so at video_pts = 1000000 us and
audio_clock = 0 (diff exactly one second, far beyond every documented
band) the code still takes the in-sync branch and leaves the delay at
1/30, while the documented behaviour hard-corrects to 1/30 + 1. -/
theorem C1_sync_band_units_bug :
    adjustDelay 1000000 0 (1 / 30) = 1 / 30 ∧
    (100 / 1000 : ℚ) < |syncDiff 1000000 0| ∧
    adjustDelaySpec 1000000 0 (1 / 30) = 1 / 30 + 1 := by
  refine ⟨?_, ?_, ?_⟩ <;>
    norm_num [adjustDelay, adjustDelaySpec, syncDiff, AV_TIME_BASE,
      AV_SYNC_THRESHOLD_MIN, AV_SYNC_THRESHOLD_MAX,
      AV_SYNC_FRAMEDUP_THRESHOLD, abs_of_nonneg]

/-! ### Stream source frame queue (stream_source.cpp lines 19-20, 255-264, 336-347) -/

/-- The media kind a StreamSource is parameterized over. -/
inductive StreamType
  | Video
  | Audio
deriving DecidableEq, Repr

/-- stream_source.cpp line 20: MAX_QUEUE_SIZE is 30 for video, 50 for
audio. -/
def MAX_QUEUE_SIZE : StreamType → ℕ
  | StreamType.Video => 30
  | StreamType.Audio => 50

/-- StreamSource::pushFrameToQueue (stream_source.cpp lines 336-347):
when the queue already holds MAX_QUEUE_SIZE frames the new frame is
dropped, otherwise it is appended.  The queue holds frames identified by
their pts. -/
def pushFrameToQueue (t : StreamType) (q : List ℤ) (f : ℤ) : List ℤ :=
  if MAX_QUEUE_SIZE t ≤ q.length then q else q ++ [f]

/-- StreamSource::getNextFrame (stream_source.cpp lines 255-264):
non-blocking; returns none on an empty queue, otherwise the front frame
and the shortened queue. -/
def getNextFrame (q : List ℤ) : Option ℤ × List ℤ :=
  match q with
  | [] => (none, [])
  | f :: rest => (some f, rest)

/-- Claim C7: the frame queue never exceeds its capacity (30 video, 50
audio): a push onto a full queue drops the frame instead of growing the
queue, and getNextFrame is non-blocking, returning none on an empty
queue. -/
theorem C7_frame_queue_bound (t : StreamType) (q : List ℤ) (f : ℤ)
    (h : q.length ≤ MAX_QUEUE_SIZE t) :
    MAX_QUEUE_SIZE StreamType.Video = 30 ∧
    MAX_QUEUE_SIZE StreamType.Audio = 50 ∧
    (pushFrameToQueue t q f).length ≤ MAX_QUEUE_SIZE t ∧
    (q.length = MAX_QUEUE_SIZE t → pushFrameToQueue t q f = q) ∧
    (getNextFrame q).2.length ≤ MAX_QUEUE_SIZE t ∧
    getNextFrame ([] : List ℤ) = (none, []) := by
  refine ⟨rfl, rfl, ?_, ?_, ?_, rfl⟩
  · unfold pushFrameToQueue
    split
    · exact h
    · simp only [List.length_append, List.length_cons, List.length_nil]
      omega
  · intro hfull
    unfold pushFrameToQueue
    simp [hfull]
  · cases q with
    | nil => simp [getNextFrame]
    | cons a rest =>
        simp only [getNextFrame, List.length_cons] at h ⊢
        omega

/-- Witness for C7 at a concrete queue of two frames. -/
theorem C7_frame_queue_bound_witness :
    ([10, 20] : List ℤ).length ≤ MAX_QUEUE_SIZE StreamType.Video ∧
    (MAX_QUEUE_SIZE StreamType.Video = 30 ∧
     MAX_QUEUE_SIZE StreamType.Audio = 50 ∧
     (pushFrameToQueue StreamType.Video [10, 20] 30).length ≤
       MAX_QUEUE_SIZE StreamType.Video ∧
     (([10, 20] : List ℤ).length = MAX_QUEUE_SIZE StreamType.Video →
       pushFrameToQueue StreamType.Video [10, 20] 30 = [10, 20]) ∧
     (getNextFrame [10, 20]).2.length ≤ MAX_QUEUE_SIZE StreamType.Video ∧
     getNextFrame ([] : List ℤ) = (none, [])) :=
  ⟨by decide, C7_frame_queue_bound StreamType.Video [10, 20] 30 (by decide)⟩

/-! ### Volume control (audio_player.cpp lines 422-436) -/

/-- SDL: SDL_MIX_MAXVOLUME = 128. -/
def SDL_MIX_MAXVOLUME : ℤ := 128

/-- std::round: rounds half away from zero. -/
def cppRound (q : ℚ) : ℤ :=
  if q < 0 then -⌊-q + 1 / 2⌋ else ⌊q + 1 / 2⌋

/-- AudioPlayer::setVolume (audio_player.cpp lines 422-431): clamp the
normalized input to the unit interval, scale by SDL_MIX_MAXVOLUME, round,
and store the integer mix level.  (The NaN branch maps NaN to 1.0; NaN
has no rational counterpart and the claim is restricted to non-NaN
inputs.) -/
def setVolume (norm : ℚ) : ℤ :=
  cppRound ((if norm < 0 then 0 else if 1 < norm then 1 else norm) *
    (SDL_MIX_MAXVOLUME : ℚ))

/-- AudioPlayer::getVolume (audio_player.cpp lines 433-436): the stored
mix level divided by SDL_MIX_MAXVOLUME. -/
def getVolume (v : ℤ) : ℚ := (v : ℚ) / (SDL_MIX_MAXVOLUME : ℚ)

/-- On nonnegative arguments cppRound agrees with Mathlib round. -/
theorem cppRound_eq_round (q : ℚ) (hq : 0 ≤ q) : cppRound q = round q := by
  rw [cppRound, if_neg (not_lt.mpr hq), round_eq]

/-- The SDL_MIX_MAXVOLUME constant cast to the rationals. -/
theorem SDL_MIX_MAXVOLUME_cast : ((SDL_MIX_MAXVOLUME : ℤ) : ℚ) = 128 := by
  norm_num [SDL_MIX_MAXVOLUME]

/-- setVolume is the identity (up to scaling) on stored mix levels: for
an integer level v between 0 and 128, setVolume (v / 128) stores v. -/
theorem setVolume_int_div (v : ℤ) (h0 : 0 ≤ v) (h1 : v ≤ 128) :
    setVolume ((v : ℚ) / 128) = v := by
  have hnn : (0 : ℚ) ≤ (v : ℚ) / 128 := by positivity
  have hle : ((v : ℚ) / 128) ≤ 1 := by
    rw [div_le_one (by norm_num : (0 : ℚ) < 128)]
    exact_mod_cast h1
  rw [setVolume, if_neg (not_lt.mpr hnn), if_neg (not_lt.mpr hle)]
  rw [SDL_MIX_MAXVOLUME_cast, div_mul_cancel₀ _ (by norm_num : (128 : ℚ) ≠ 0)]
  rw [cppRound_eq_round _ (by exact_mod_cast h0)]
  exact round_intCast v

/-- Claim C10: for x in the unit interval, setVolume stores
round(x * 128) and getVolume returns round(x * 128) / 128, so the
round-trip error is at most 1/256, and setVolume after getVolume leaves
the stored volume unchanged. -/
theorem C10_volume_roundtrip (x : ℚ) (h0 : 0 ≤ x) (h1 : x ≤ 1) :
    SDL_MIX_MAXVOLUME = 128 ∧
    getVolume (setVolume x) = (round (x * 128) : ℚ) / 128 ∧
    |getVolume (setVolume x) - x| ≤ 1 / 256 ∧
    setVolume (getVolume (setVolume x)) = setVolume x := by
  have hset : setVolume x = round (x * 128) := by
    rw [setVolume, if_neg (not_lt.mpr h0), if_neg (not_lt.mpr h1)]
    rw [SDL_MIX_MAXVOLUME_cast]
    exact cppRound_eq_round _ (by positivity)
  have hv0 : (0 : ℤ) ≤ round (x * 128) := by
    rw [round_eq]
    exact Int.le_floor.mpr (by push_cast; linarith)
  have hv128 : round (x * 128) ≤ 128 := by
    rw [round_eq]
    have h : (⌊x * 128 + 1 / 2⌋ : ℤ) ≤ ⌊(257 : ℚ) / 2⌋ :=
      Int.floor_le_floor (by linarith)
    exact h.trans (by norm_num)
  have hget : getVolume (setVolume x) = (round (x * 128) : ℚ) / 128 := by
    rw [hset, getVolume, SDL_MIX_MAXVOLUME_cast]
  refine ⟨rfl, hget, ?_, ?_⟩
  · rw [hget]
    have hr : |(round (x * 128) : ℚ) - x * 128| ≤ 1 / 2 := by
      rw [abs_sub_comm]
      exact abs_sub_round (x * 128)
    have hrw : (round (x * 128) : ℚ) / 128 - x =
        ((round (x * 128) : ℚ) - x * 128) / 128 := by ring
    rw [hrw, abs_div, show |(128 : ℚ)| = 128 by norm_num]
    calc |(round (x * 128) : ℚ) - x * 128| / 128 ≤ (1 / 2) / 128 := by gcongr
      _ = 1 / 256 := by norm_num
  · rw [hget, setVolume_int_div _ hv0 hv128, hset]

/-- Witness for C10 at x = 1/3. -/
theorem C10_volume_roundtrip_witness :
    (0 : ℚ) ≤ 1 / 3 ∧ (1 / 3 : ℚ) ≤ 1 ∧
    (SDL_MIX_MAXVOLUME = 128 ∧
     getVolume (setVolume (1 / 3)) = (round ((1 / 3 : ℚ) * 128) : ℚ) / 128 ∧
     |getVolume (setVolume (1 / 3)) - 1 / 3| ≤ 1 / 256 ∧
     setVolume (getVolume (setVolume (1 / 3))) = setVolume (1 / 3)) :=
  ⟨by norm_num, by norm_num,
    C10_volume_roundtrip (1 / 3) (by norm_num) (by norm_num)⟩

/-! ### Controller open path (player.cpp lines 48-91, demuxer.cpp lines 16-65,
stream_source.cpp lines 36-66) -/

/-- The facts about a media file and environment that decide the
success of each step of the open path. -/
structure MediaFile where
  /-- avformat_open_input and avformat_find_stream_info succeed
  (demuxer.cpp lines 24-35). -/
  containerOk : Bool
  /-- the container holds at least one video stream (demuxer.cpp lines
  38-55). -/
  hasVideoStream : Bool
  /-- the container holds at least one audio stream. -/
  hasAudioStream : Bool
  /-- video decoder initialization succeeds (stream_source.cpp lines
  54-60). -/
  videoDecoderOk : Bool
  /-- audio decoder initialization succeeds. -/
  audioDecoderOk : Bool
  /-- audio parameters are valid and the SDL device and resampler open
  (audio_player.cpp lines 58-117). -/
  audioDeviceOk : Bool
  /-- the GL renderer starts (player.cpp lines 77-78). -/
  rendererOk : Bool
deriving DecidableEq, Repr

/-- Demuxer::open (demuxer.cpp lines 16-65): succeeds when the container
opens and a stream of the requested kind exists; otherwise false. -/
def Demuxer.openOk (t : StreamType) (f : MediaFile) : Bool :=
  f.containerOk &&
    (match t with
     | StreamType.Video => f.hasVideoStream
     | StreamType.Audio => f.hasAudioStream)

/-- StreamSource::open (stream_source.cpp lines 36-66): demuxer open,
stream lookup and decoder initialization must all succeed. -/
def StreamSource.openOk (t : StreamType) (f : MediaFile) : Bool :=
  Demuxer.openOk t f &&
    (match t with
     | StreamType.Video => f.videoDecoderOk
     | StreamType.Audio => f.audioDecoderOk)

/-- AudioPlayer::initialize success (audio_player.cpp lines 46-139). -/
def AudioPlayer.initOk (f : MediaFile) : Bool := f.audioDeviceOk

/-- Player::open (player.cpp lines 48-91) from the Stopped state: the
early-return chain exactly as written.  Opening the audio stream source
is unconditional; when it fails the whole open fails (lines 59-62). -/
def Player.openReturns (f : MediaFile) : Bool :=
  if !StreamSource.openOk StreamType.Video f then false
  else if !StreamSource.openOk StreamType.Audio f then false
  else if !AudioPlayer.initOk f then false
  else if !f.rendererOk then false
  else true

/-- A well-formed file holding a video stream and no audio stream; every
step not involving the audio stream succeeds. -/
def videoOnlyFile : MediaFile :=
  { containerOk := true
    hasVideoStream := true
    hasAudioStream := false
    videoDecoderOk := true
    audioDecoderOk := true
    audioDeviceOk := true
    rendererOk := true }

/-- Claim C2 counterexample: on a file with a video stream and no audio
stream, Player::open returns false — the audio StreamSource fails to
open because the demuxer finds no audio stream, and the controller
aborts — contradicting the claim that open succeeds with the audio
source inactive. -/
theorem C2_video_only_open_fails_counterexample :
    videoOnlyFile.hasVideoStream = true ∧
    videoOnlyFile.hasAudioStream = false ∧
    Player.openReturns videoOnlyFile = false := by
  decide

/-- Claim C2 amended: for every file without an audio stream, open
returns false (the controller requires both stream sources to open). -/
theorem C2_open_requires_audio_stream (f : MediaFile)
    (h : f.hasAudioStream = false) : Player.openReturns f = false := by
  unfold Player.openReturns StreamSource.openOk Demuxer.openOk
  cases hv : StreamSource.openOk StreamType.Video f <;>
    simp [StreamSource.openOk, Demuxer.openOk, h] at hv ⊢

/-- Witness for the amended C2 at the concrete video-only file. -/
theorem C2_open_requires_audio_stream_witness :
    videoOnlyFile.hasAudioStream = false ∧
    Player.openReturns videoOnlyFile = false :=
  ⟨rfl, C2_open_requires_audio_stream videoOnlyFile rfl⟩

/-! ### Controller close path (player.cpp lines 93-122) -/

/-- Player::State (player.hpp line 25). -/
inductive PState
  | Stopped
  | Playing
  | Paused
  | Error
deriving DecidableEq, Repr

/-- The controller facts the close path manipulates. -/
structure PlayerCtl where
  /-- the published player state. -/
  state : PState
  /-- the is_running_ flag read by the render loop. -/
  is_running : Bool
  /-- the render thread has been spawned and not yet joined. -/
  render_thread_live : Bool
  /-- audio player, renderer and both stream sources stopped and
  released. -/
  components_released : Bool
deriving DecidableEq, Repr

/-- The controller right after a successful Player::open (player.cpp
lines 87-90): is_running_ set, render thread spawned, state published as
Stopped. -/
def Player.afterOpen : PlayerCtl :=
  { state := PState.Stopped
    is_running := true
    render_thread_live := true
    components_released := false }

/-- Player::close (player.cpp lines 93-122): returns immediately when
the state is Stopped; otherwise clears is_running_, joins the render
thread, stops and releases every component, and publishes Stopped. -/
def Player.close (p : PlayerCtl) : PlayerCtl :=
  if p.state = PState.Stopped then p
  else
    { state := PState.Stopped
      is_running := false
      render_thread_live := false
      components_released := true }

/-- Claim C4 failing input: immediately after a successful open the
state is Stopped, so close() hits the early return and does nothing: the
render thread is not joined, no component is released, and is_running_
stays true — contradicting the claim that close from every
reachable-after-open state stops and releases all owned components and
joins the presenter thread. -/
theorem C4_close_noop_after_open :
    Player.afterOpen.state = PState.Stopped ∧
    Player.close Player.afterOpen = Player.afterOpen ∧
    (Player.close Player.afterOpen).render_thread_live = true ∧
    (Player.close Player.afterOpen).components_released = false ∧
    (Player.close Player.afterOpen).is_running = true := by
  decide

/-! ### AudioPlayer state (audio_player.hpp lines 73-105) -/

/-- The AudioPlayer fields manipulated by the PCM ring, the clock and
the producer loop (audio_player.hpp; trailing underscores of the C++
member names dropped).  Ring positions are the uint64 monotone counters
pcm_ring_read_ and pcm_ring_write_; bytes are naturals. -/
structure AudioState where
  /-- pcm_ring_cap_ : capacity in bytes. -/
  pcm_ring_cap : ℕ
  /-- pcm_ring_read_ : monotone read position. -/
  pcm_ring_read : ℕ
  /-- pcm_ring_write_ : monotone write position. -/
  pcm_ring_write : ℕ
  /-- pcm_ring_buf_ : the backing byte storage. -/
  pcm_ring_buf : List ℕ
  /-- base_pts_ (int64, microseconds). -/
  base_pts : ℤ
  /-- consumed_samples_ (int64). -/
  consumed_samples : ℤ
  /-- audio_clock_ (int64, microseconds). -/
  audio_clock : ℤ
  /-- playback_finished_. -/
  playback_finished : Bool
  /-- paused_. -/
  paused : Bool
  /-- stop_. -/
  stopFlag : Bool
  /-- sample_rate_. -/
  sample_rate : ℤ
  /-- channels_. -/
  channels : ℕ
deriving DecidableEq, Repr

/-- Byte-wise memcpy of src into buf starting at index pos. -/
def copyInto : List ℕ → ℕ → List ℕ → List ℕ
  | buf, _, [] => buf
  | buf, pos, b :: rest => copyInto (buf.set pos b) (pos + 1) rest

/-- AudioPlayer::pushPCMData (audio_player.cpp lines 277-304): write at
most min(requested, free space) bytes in at most two contiguous chunks,
advance the write position by the number written, and return it.  The
requested byte count is the length of the data list. -/
def pushPCMData (s : AudioState) (data : List ℕ) : ℕ × AudioState :=
  if data.length = 0 ∨ s.pcm_ring_cap = 0 then (0, s)
  else
    let free_space := s.pcm_ring_cap - (s.pcm_ring_write - s.pcm_ring_read)
    if free_space = 0 then (0, s)
    else
      let bytes_to_write := min data.length free_space
      let first_chunk := min bytes_to_write
        (s.pcm_ring_cap - s.pcm_ring_write % s.pcm_ring_cap)
      let second_chunk := bytes_to_write - first_chunk
      let buf1 := copyInto s.pcm_ring_buf (s.pcm_ring_write % s.pcm_ring_cap)
        (data.take first_chunk)
      let buf2 := copyInto buf1 0 ((data.drop first_chunk).take second_chunk)
      (bytes_to_write,
        { s with
            pcm_ring_buf := buf2
            pcm_ring_write := s.pcm_ring_write + bytes_to_write })

/-- AudioPlayer::popPCMData (audio_player.cpp lines 306-332): read at
most min(requested, available) bytes in at most two contiguous chunks
and advance the read position by the number read. -/
def popPCMData (s : AudioState) (bytes : ℕ) : List ℕ × AudioState :=
  if bytes = 0 ∨ s.pcm_ring_cap = 0 then ([], s)
  else
    let available := s.pcm_ring_write - s.pcm_ring_read
    if available = 0 then ([], s)
    else
      let bytes_to_read := min bytes available
      let first_chunk := min bytes_to_read
        (s.pcm_ring_cap - s.pcm_ring_read % s.pcm_ring_cap)
      let second_chunk := bytes_to_read - first_chunk
      let out :=
        (s.pcm_ring_buf.drop (s.pcm_ring_read % s.pcm_ring_cap)).take first_chunk
          ++ s.pcm_ring_buf.take second_chunk
      (out, { s with pcm_ring_read := s.pcm_ring_read + bytes_to_read })

/-- AudioPlayer::resetClock (audio_player.cpp lines 392-420): reset both
ring positions to 0, zero the backing storage, zero consumed_samples_,
set base_pts_ and audio_clock_ to the supplied target, clear
playback_finished_.  (The SDL device pause around the critical section
touches no modelled field.) -/
def resetClock (s : AudioState) (pts : ℤ) : AudioState :=
  { s with
      pcm_ring_read := 0
      pcm_ring_write := 0
      pcm_ring_buf := List.replicate s.pcm_ring_buf.length 0
      consumed_samples := 0
      base_pts := pts
      audio_clock := pts
      playback_finished := false }

/-- AudioPlayer::producerThreadLoop lines 216-221: the producer stores
the rescaled frame PTS into base_pts_ only when base_pts_ currently
equals AV_NOPTS_VALUE and the frame carries a valid PTS; otherwise
base_pts_ is left unchanged. -/
def producerUpdateBasePts (base_pts frame_pts rescaled_pts : ℤ) : ℤ :=
  if base_pts = AV_NOPTS_VALUE ∧ frame_pts ≠ AV_NOPTS_VALUE then rescaled_pts
  else base_pts

/-- bytes_per_frame in fillAudioData (audio_player.cpp lines 154-155):
2 bytes per S16 sample times the channel count. -/
def bytesPerFrame (s : AudioState) : ℕ := 2 * s.channels

/-- The while loop of AudioPlayer::fillAudioData (audio_player.cpp lines
159-178): repeatedly pop from the ring; on each non-empty pop advance
consumed_samples_ by popped bytes / bytes_per_frame and republish
audio_clock_ = base_pts_ + consumed_samples_ * AV_TIME_BASE /
sample_rate_ (int64 division truncates toward zero, Int.tdiv).  The loop
exits when the request is filled, the ring is empty, or playback has
finished with an empty ring. -/
def fillLoop (s : AudioState) (remaining : ℕ) : AudioState :=
  if h0 : remaining = 0 then s
  else if s.playback_finished ∧ s.pcm_ring_read = s.pcm_ring_write then s
  else
    let r := popPCMData s remaining
    if h1 : r.1.length = 0 then r.2
    else
      let consumed := r.2.consumed_samples + (r.1.length / bytesPerFrame s : ℕ)
      fillLoop
        { r.2 with
            consumed_samples := consumed
            audio_clock :=
              r.2.base_pts + Int.tdiv (consumed * AV_TIME_BASE) r.2.sample_rate }
        (remaining - r.1.length)
termination_by remaining
decreasing_by
  unfold r at h1
  omega

/-- AudioPlayer::fillAudioData (audio_player.cpp lines 150-187): when
paused or stopped the callback only zero-fills the device buffer and
touches no clock state; otherwise it runs the pop loop.  The volume
mixing at lines 180-186 touches no modelled field. -/
def fillAudioData (s : AudioState) (len : ℕ) : AudioState :=
  if s.paused ∨ s.stopFlag then s else fillLoop s len

/-- Ring occupancy: write_pos - read_pos. -/
def occupancy (s : AudioState) : ℕ := s.pcm_ring_write - s.pcm_ring_read

/-- Ring free space: capacity - occupancy. -/
def freeSpace (s : AudioState) : ℕ := s.pcm_ring_cap - occupancy s

/-- Well-formedness of the ring state: the storage has exactly the
declared capacity and the uint64 positions satisfy
read ≤ write ≤ read + capacity.  This holds from initialization on and
is preserved by every operation. -/
def ringWF (s : AudioState) : Prop :=
  s.pcm_ring_buf.length = s.pcm_ring_cap ∧
  s.pcm_ring_read ≤ s.pcm_ring_write ∧
  s.pcm_ring_write ≤ s.pcm_ring_read + s.pcm_ring_cap

instance (s : AudioState) : Decidable (ringWF s) := by
  unfold ringWF
  infer_instance

/-- The abstract byte queue a ring state represents: the occupancy many
bytes starting at the read position, in ring order. -/
def ringQueue (s : AudioState) : List ℕ :=
  (List.range (occupancy s)).map
    (fun i => s.pcm_ring_buf.getD ((s.pcm_ring_read + i) % s.pcm_ring_cap) 0)

/-! ### Base PTS after a clock reset (claim C3) -/

/-- A small concrete AudioPlayer state used as witness input. -/
def testAudioState : AudioState :=
  { pcm_ring_cap := 8
    pcm_ring_read := 0
    pcm_ring_write := 0
    pcm_ring_buf := List.replicate 8 0
    base_pts := 0
    consumed_samples := 0
    audio_clock := 0
    playback_finished := false
    paused := false
    stopFlag := false
    sample_rate := 8
    channels := 1 }

/-- Claim C3 counterexample: reset the clock to target 1000000 us and
let the producer process the first frame after the reset, a frame with
valid raw PTS 48000 rescaling to 500000 us.  The claim says base_pts_us
becomes the frame PTS 500000; the code leaves it at the reset target
1000000, because the guard at audio_player.cpp line 217 fires only when
base_pts_ equals AV_NOPTS_VALUE, and resetClock stored the target
instead. -/
theorem C3_base_pts_not_updated_counterexample :
    (resetClock testAudioState 1000000).base_pts = 1000000 ∧
    producerUpdateBasePts (resetClock testAudioState 1000000).base_pts
      48000 500000 = 1000000 ∧
    (1000000 : ℤ) ≠ 500000 := by
  refine ⟨rfl, ?_, by decide⟩
  have hneg : ¬((resetClock testAudioState 1000000).base_pts = AV_NOPTS_VALUE ∧
      (48000 : ℤ) ≠ AV_NOPTS_VALUE) := by decide
  rw [producerUpdateBasePts, if_neg hneg]
  rfl

/-- Claim C3 amended: for every frame the producer processes after a
clock reset — the first one included — base_pts_us is left unchanged at
the reset target, because the store at audio_player.cpp lines 217-221 is
guarded by base_pts_ = AV_NOPTS_VALUE and resetClock set base_pts_ to
the target. -/
theorem C3_base_pts_frozen_after_reset (s : AudioState)
    (t frame_pts rescaled_pts : ℤ) (h : t ≠ AV_NOPTS_VALUE) :
    (resetClock s t).base_pts = t ∧
    producerUpdateBasePts (resetClock s t).base_pts frame_pts rescaled_pts
      = t := by
  refine ⟨rfl, ?_⟩
  have hb : (resetClock s t).base_pts = t := rfl
  have hneg : ¬((resetClock s t).base_pts = AV_NOPTS_VALUE ∧
      frame_pts ≠ AV_NOPTS_VALUE) :=
    fun hc => h (hb.symm.trans hc.1)
  rw [producerUpdateBasePts, if_neg hneg]
  exact hb

/-- Witness for the amended C3 at the concrete test state. -/
theorem C3_base_pts_frozen_after_reset_witness :
    (1000000 : ℤ) ≠ AV_NOPTS_VALUE ∧
    ((resetClock testAudioState 1000000).base_pts = 1000000 ∧
     producerUpdateBasePts (resetClock testAudioState 1000000).base_pts
       48000 500000 = 1000000) :=
  ⟨by decide,
    C3_base_pts_frozen_after_reset testAudioState 1000000 48000 500000
      (by decide)⟩

/-! ### Audio clock reset and monotonicity (claim C6) -/

/-- The audio clock invariant maintained between resets: nonnegative
consumed sample count, positive sample rate, and a published clock not
ahead of base_pts_ + consumed_samples_ * AV_TIME_BASE / sample_rate_. -/
def clockInv (s : AudioState) : Prop :=
  0 ≤ s.consumed_samples ∧ 0 < s.sample_rate ∧
  s.audio_clock ≤
    s.base_pts + Int.tdiv (s.consumed_samples * AV_TIME_BASE) s.sample_rate

instance (s : AudioState) : Decidable (clockInv s) := by
  unfold clockInv
  infer_instance

/-- popPCMData only moves the read position and never touches the clock
fields, the flags or the audio parameters. -/
theorem popPCMData_fields (s : AudioState) (n : ℕ) :
    (popPCMData s n).2.base_pts = s.base_pts ∧
    (popPCMData s n).2.consumed_samples = s.consumed_samples ∧
    (popPCMData s n).2.audio_clock = s.audio_clock ∧
    (popPCMData s n).2.sample_rate = s.sample_rate ∧
    (popPCMData s n).2.channels = s.channels ∧
    (popPCMData s n).2.playback_finished = s.playback_finished ∧
    (popPCMData s n).2.paused = s.paused ∧
    (popPCMData s n).2.stopFlag = s.stopFlag ∧
    (popPCMData s n).2.pcm_ring_cap = s.pcm_ring_cap ∧
    (popPCMData s n).2.pcm_ring_write = s.pcm_ring_write ∧
    (popPCMData s n).2.pcm_ring_buf = s.pcm_ring_buf := by
  unfold popPCMData
  simp only []
  split_ifs <;> simp

/-- Truncating division with a fixed positive divisor is monotone on
nonnegative numerators. -/
theorem tdiv_mono_num (a b c : ℤ) (ha : 0 ≤ a) (hab : a ≤ b) (hc : 0 < c) :
    Int.tdiv a c ≤ Int.tdiv b c := by
  rw [Int.tdiv_eq_ediv ha hc.le, Int.tdiv_eq_ediv (ha.trans hab) hc.le]
  exact Int.ediv_le_ediv hc hab

/-- Across one device-callback pop loop the published audio clock never
decreases, the clock invariant is preserved, and base_pts_ is
unchanged. -/
theorem fillLoop_clock_mono (s : AudioState) (remaining : ℕ)
    (h : clockInv s) :
    clockInv (fillLoop s remaining) ∧
    s.audio_clock ≤ (fillLoop s remaining).audio_clock ∧
    (fillLoop s remaining).base_pts = s.base_pts := by
  revert h
  induction remaining using Nat.strong_induction_on generalizing s with
  | _ remaining ih =>
    intro h
    rw [fillLoop]
    by_cases h0 : remaining = 0
    · rw [dif_pos h0]
      exact ⟨h, le_refl _, rfl⟩
    rw [dif_neg h0]
    by_cases hbrk : s.playback_finished = true ∧
      s.pcm_ring_read = s.pcm_ring_write
    · rw [if_pos hbrk]
      exact ⟨h, le_refl _, rfl⟩
    rw [if_neg hbrk]
    simp only []
    obtain ⟨hb, hc, hk, hrt, -, -, -, -, -, -, -⟩ :=
      popPCMData_fields s remaining
    by_cases h1 : (popPCMData s remaining).1.length = 0
    · rw [dif_pos h1]
      refine ⟨⟨hc ▸ h.1, hrt ▸ h.2.1, ?_⟩, le_of_eq hk.symm, hb⟩
      rw [hb, hc, hk, hrt]
      exact h.2.2
    rw [dif_neg h1]
    set d : ℤ :=
      (((popPCMData s remaining).1.length / bytesPerFrame s : ℕ) : ℤ) with hd
    have hd0 : 0 ≤ d := Int.natCast_nonneg _
    have hinv2 : clockInv
        { (popPCMData s remaining).2 with
            consumed_samples := (popPCMData s remaining).2.consumed_samples + d
            audio_clock := (popPCMData s remaining).2.base_pts +
              Int.tdiv (((popPCMData s remaining).2.consumed_samples + d) *
                AV_TIME_BASE) (popPCMData s remaining).2.sample_rate } := by
      refine ⟨?_, ?_, le_of_eq rfl⟩
      · show 0 ≤ (popPCMData s remaining).2.consumed_samples + d
        rw [hc]
        exact add_nonneg h.1 hd0
      · show 0 < (popPCMData s remaining).2.sample_rate
        rw [hrt]
        exact h.2.1
    obtain ⟨ihinv, ihle, ihbase⟩ :=
      ih (remaining - (popPCMData s remaining).1.length) (by omega) _ hinv2
    refine ⟨ihinv, ?_, ?_⟩
    · refine le_trans ?_ ihle
      show s.audio_clock ≤ (popPCMData s remaining).2.base_pts +
        Int.tdiv (((popPCMData s remaining).2.consumed_samples + d) *
          AV_TIME_BASE) (popPCMData s remaining).2.sample_rate
      rw [hb, hc, hrt]
      refine le_trans h.2.2 ?_
      have hmul : s.consumed_samples * AV_TIME_BASE ≤
          (s.consumed_samples + d) * AV_TIME_BASE := by
        have hle : s.consumed_samples ≤ s.consumed_samples + d := by linarith
        exact mul_le_mul_of_nonneg_right hle (by norm_num [AV_TIME_BASE])
      have hdiv := tdiv_mono_num (s.consumed_samples * AV_TIME_BASE)
        ((s.consumed_samples + d) * AV_TIME_BASE) s.sample_rate
        (mul_nonneg h.1 (by norm_num [AV_TIME_BASE])) hmul h.2.1
      linarith
    · rw [ihbase]
      exact hb

/-- Claim C6: immediately after resetClock(t) the published clock and
base_pts_ equal t, consumed_samples_ is 0, both ring positions are 0,
the backing storage is zeroed and playback_finished_ is cleared; the
clock invariant holds after the reset when the sample rate is positive,
and while unpaused and not stopped the device callback never decreases
the published clock and preserves the invariant. -/
theorem C6_reset_and_monotone_clock (s : AudioState) (t : ℤ) (len : ℕ)
    (h : clockInv s) :
    (resetClock s t).audio_clock = t ∧
    (resetClock s t).base_pts = t ∧
    (resetClock s t).consumed_samples = 0 ∧
    (resetClock s t).pcm_ring_read = 0 ∧
    (resetClock s t).pcm_ring_write = 0 ∧
    (∀ i, (resetClock s t).pcm_ring_buf.getD i 0 = 0) ∧
    (resetClock s t).playback_finished = false ∧
    (0 < s.sample_rate → clockInv (resetClock s t)) ∧
    s.audio_clock ≤ (fillAudioData s len).audio_clock ∧
    clockInv (fillAudioData s len) := by
  refine ⟨rfl, rfl, rfl, rfl, rfl, ?_, rfl, ?_, ?_, ?_⟩
  · intro i
    show (List.replicate s.pcm_ring_buf.length 0).getD i 0 = 0
    rw [List.getD_eq_getElem?_getD, List.getElem?_replicate]
    split <;> rfl
  · intro hrate
    refine ⟨le_refl 0, hrate, ?_⟩
    show t ≤ t + Int.tdiv (0 * AV_TIME_BASE) s.sample_rate
    rw [zero_mul, Int.zero_tdiv, add_zero]
  · unfold fillAudioData
    split
    · exact le_refl _
    · exact (fillLoop_clock_mono s len h).2.1
  · unfold fillAudioData
    split
    · exact h
    · exact (fillLoop_clock_mono s len h).1

/-- Witness for C6 at the concrete test state. -/
theorem C6_reset_and_monotone_clock_witness :
    clockInv testAudioState ∧
    ((resetClock testAudioState 1000000).audio_clock = 1000000 ∧
     (resetClock testAudioState 1000000).base_pts = 1000000 ∧
     (resetClock testAudioState 1000000).consumed_samples = 0 ∧
     (resetClock testAudioState 1000000).pcm_ring_read = 0 ∧
     (resetClock testAudioState 1000000).pcm_ring_write = 0 ∧
     (∀ i, (resetClock testAudioState 1000000).pcm_ring_buf.getD i 0 = 0) ∧
     (resetClock testAudioState 1000000).playback_finished = false ∧
     (0 < testAudioState.sample_rate →
       clockInv (resetClock testAudioState 1000000)) ∧
     testAudioState.audio_clock ≤
       (fillAudioData testAudioState 4).audio_clock ∧
     clockInv (fillAudioData testAudioState 4)) :=
  ⟨by decide, C6_reset_and_monotone_clock testAudioState 1000000 4 (by decide)⟩

/-! ### Ring buffer lemmas (claims C8 and C9) -/

/-- copyInto preserves the buffer length. -/
theorem copyInto_length (src : List ℕ) : ∀ (buf : List ℕ) (pos : ℕ),
    (copyInto buf pos src).length = buf.length := by
  induction src with
  | nil => intro buf pos; rfl
  | cons b rest ih =>
      intro buf pos
      rw [copyInto, ih, List.length_set]

/-- copyInto leaves indices below the copy region unchanged. -/
theorem copyInto_getElem?_lt (src : List ℕ) : ∀ (buf : List ℕ) (pos j : ℕ),
    j < pos → (copyInto buf pos src)[j]? = buf[j]? := by
  induction src with
  | nil => intro buf pos j hj; rfl
  | cons b rest ih =>
      intro buf pos j hj
      rw [copyInto, ih _ _ _ (Nat.lt_succ_of_lt hj)]
      exact List.getElem?_set_ne (by omega)

/-- copyInto leaves indices at or above the end of the copy region
unchanged. -/
theorem copyInto_getElem?_ge (src : List ℕ) : ∀ (buf : List ℕ) (pos j : ℕ),
    pos + src.length ≤ j → (copyInto buf pos src)[j]? = buf[j]? := by
  induction src with
  | nil => intro buf pos j hj; rfl
  | cons b rest ih =>
      intro buf pos j hj
      rw [List.length_cons] at hj
      rw [copyInto, ih _ _ _ (by omega)]
      exact List.getElem?_set_ne (by omega)

/-- Inside the copy region copyInto installs the source bytes. -/
theorem copyInto_getElem?_at (src : List ℕ) : ∀ (buf : List ℕ) (pos i : ℕ),
    i < src.length → pos + src.length ≤ buf.length →
    (copyInto buf pos src)[pos + i]? = src[i]? := by
  induction src with
  | nil =>
      intro buf pos i hi _
      exact absurd hi (by simp)
  | cons b rest ih =>
      intro buf pos i hi hlen
      rw [List.length_cons] at hi hlen
      cases i with
      | zero =>
          rw [copyInto, copyInto_getElem?_lt rest _ _ _ (by omega)]
          simp only [Nat.add_zero]
          rw [List.getElem?_set_eq_of_lt b (show pos < buf.length by omega)]
          simp
      | succ m =>
          rw [copyInto, show pos + (m + 1) = (pos + 1) + m by omega,
            ih _ _ _ (by omega) (by rw [List.length_set]; omega)]
          simp

/-- Splitting a sum modulo the capacity: no wrap. -/
theorem mod_add_of_lt (w i cap : ℕ) (h : w % cap + i < cap) :
    (w + i) % cap = w % cap + i := by
  rw [← Nat.mod_add_mod]
  exact Nat.mod_eq_of_lt h

/-- Splitting a sum modulo the capacity: one wrap. -/
theorem mod_add_of_ge (w i cap : ℕ) (hcap : 0 < cap) (h1 : cap ≤ w % cap + i)
    (h2 : w % cap + i < 2 * cap) :
    (w + i) % cap = w % cap + i - cap := by
  rw [← Nat.mod_add_mod, Nat.mod_eq_sub_mod h1]
  exact Nat.mod_eq_of_lt (by omega)

/-- Positions whose distance is positive and below the capacity have
distinct residues. -/
theorem mod_ne_of_between (a b cap : ℕ) (h1 : a < b) (h2 : b - a < cap) :
    a % cap ≠ b % cap := by
  intro hmod
  have hdvd : cap ∣ b - a := (Nat.modEq_iff_dvd' h1.le).mp hmod
  have hle := Nat.le_of_dvd (by omega) hdvd
  omega

/-- Index lookup in the abstract ring queue. -/
theorem ringQueue_getElem? (s : AudioState) (n : ℕ) :
    (ringQueue s)[n]? =
      if n < occupancy s then
        some (s.pcm_ring_buf.getD
          ((s.pcm_ring_read + n) % s.pcm_ring_cap) 0)
      else none := by
  unfold ringQueue
  rcases lt_or_ge n (occupancy s) with h | h
  · rw [if_pos h, List.getElem?_map, List.getElem?_range h]
    rfl
  · rw [if_neg (not_lt.mpr h)]
    exact List.getElem?_eq_none (by rw [List.length_map, List.length_range]; exact h)

/-- The abstract ring queue has exactly the occupancy many bytes. -/
theorem ringQueue_length (s : AudioState) :
    (ringQueue s).length = occupancy s := by
  unfold ringQueue
  rw [List.length_map, List.length_range]

/-- Claim C8: under the ring invariant the occupancy stays within
[0, capacity]; push accepts k ≤ min(requested, free space before) bytes
and advances the write position by exactly k; pop returns
k ≤ min(requested, occupancy before) bytes and advances the read
position by exactly k; both preserve the invariant. -/
theorem C8_ring_push_pop_bounds (s : AudioState) (data : List ℕ) (n : ℕ)
    (hwf : ringWF s) :
    occupancy s ≤ s.pcm_ring_cap ∧
    (pushPCMData s data).1 ≤ min data.length (freeSpace s) ∧
    (pushPCMData s data).2.pcm_ring_write =
      s.pcm_ring_write + (pushPCMData s data).1 ∧
    (pushPCMData s data).2.pcm_ring_read = s.pcm_ring_read ∧
    ringWF (pushPCMData s data).2 ∧
    (popPCMData s n).1.length ≤ min n (occupancy s) ∧
    (popPCMData s n).2.pcm_ring_read =
      s.pcm_ring_read + (popPCMData s n).1.length ∧
    (popPCMData s n).2.pcm_ring_write = s.pcm_ring_write ∧
    ringWF (popPCMData s n).2 := by
  obtain ⟨hlen, hrw, hwc⟩ := hwf
  have hocc : occupancy s = s.pcm_ring_write - s.pcm_ring_read := rfl
  have hfree : freeSpace s =
      s.pcm_ring_cap - (s.pcm_ring_write - s.pcm_ring_read) := by
    rfl
  have hpush : (pushPCMData s data).1 = min data.length (freeSpace s) ∧
      (pushPCMData s data).2.pcm_ring_write =
        s.pcm_ring_write + (pushPCMData s data).1 ∧
      (pushPCMData s data).2.pcm_ring_read = s.pcm_ring_read ∧
      (pushPCMData s data).2.pcm_ring_buf.length = s.pcm_ring_buf.length ∧
      (pushPCMData s data).2.pcm_ring_cap = s.pcm_ring_cap := by
    unfold pushPCMData
    simp only []
    split_ifs with hA hB
    · refine ⟨?_, by simp, rfl, rfl, rfl⟩
      show (0 : ℕ) = min data.length (freeSpace s)
      rcases hA with h | h
      · rw [h]
        simp
      · rw [hfree]
        omega
    · refine ⟨?_, by simp, rfl, rfl, rfl⟩
      show (0 : ℕ) = min data.length (freeSpace s)
      rw [hfree]
      omega
    · refine ⟨rfl, rfl, rfl, ?_, rfl⟩
      show (copyInto (copyInto s.pcm_ring_buf _ _) 0 _).length =
        s.pcm_ring_buf.length
      rw [copyInto_length, copyInto_length]
  have hpop : (popPCMData s n).1.length = min n (occupancy s) ∧
      (popPCMData s n).2.pcm_ring_read =
        s.pcm_ring_read + (popPCMData s n).1.length ∧
      (popPCMData s n).2.pcm_ring_write = s.pcm_ring_write ∧
      (popPCMData s n).2.pcm_ring_buf = s.pcm_ring_buf ∧
      (popPCMData s n).2.pcm_ring_cap = s.pcm_ring_cap := by
    unfold popPCMData
    simp only []
    split_ifs with hA hB
    · refine ⟨?_, by simp, rfl, rfl, rfl⟩
      show ([] : List ℕ).length = min n (occupancy s)
      rw [List.length_nil, hocc]
      rcases hA with h | h
      · rw [h]
        simp
      · omega
    · refine ⟨?_, by simp, rfl, rfl, rfl⟩
      show ([] : List ℕ).length = min n (occupancy s)
      rw [List.length_nil, hocc]
      omega
    · have hc : 0 < s.pcm_ring_cap := by
        rcases Nat.eq_zero_or_pos s.pcm_ring_cap with h | h
        · exact absurd (Or.inr h) hA
        · exact h
      have hm : s.pcm_ring_read % s.pcm_ring_cap < s.pcm_ring_cap :=
        Nat.mod_lt _ hc
      refine ⟨?_, ?_, rfl, rfl, rfl⟩
      · rw [hocc, List.length_append, List.length_take, List.length_drop,
          List.length_take, hlen]
        omega
      · show s.pcm_ring_read + _ = s.pcm_ring_read + _
        rw [List.length_append, List.length_take, List.length_drop,
          List.length_take, hlen]
        omega
  obtain ⟨hp1, hp2, hp3, hp4, hp5⟩ := hpush
  obtain ⟨hq1, hq2, hq3, hq4, hq5⟩ := hpop
  refine ⟨by omega, le_of_eq hp1, hp2, hp3, ⟨?_, ?_, ?_⟩, le_of_eq hq1,
    hq2, hq3, ⟨?_, ?_, ?_⟩⟩
  · rw [hp4, hp5, hlen]
  · omega
  · rw [hp2, hp3, hp5, hp1]
    omega
  · rw [hq4, hq5, hlen]
  · omega
  · rw [hq2, hq3, hq5, hq1]
    omega

/-- Witness for C8 at the concrete test state. -/
theorem C8_ring_push_pop_bounds_witness :
    ringWF testAudioState ∧
    (occupancy testAudioState ≤ testAudioState.pcm_ring_cap ∧
     (pushPCMData testAudioState [1, 2, 3]).1 ≤
       min ([1, 2, 3] : List ℕ).length (freeSpace testAudioState) ∧
     (pushPCMData testAudioState [1, 2, 3]).2.pcm_ring_write =
       testAudioState.pcm_ring_write + (pushPCMData testAudioState [1, 2, 3]).1 ∧
     (pushPCMData testAudioState [1, 2, 3]).2.pcm_ring_read =
       testAudioState.pcm_ring_read ∧
     ringWF (pushPCMData testAudioState [1, 2, 3]).2 ∧
     (popPCMData testAudioState 2).1.length ≤
       min 2 (occupancy testAudioState) ∧
     (popPCMData testAudioState 2).2.pcm_ring_read =
       testAudioState.pcm_ring_read + (popPCMData testAudioState 2).1.length ∧
     (popPCMData testAudioState 2).2.pcm_ring_write =
       testAudioState.pcm_ring_write ∧
     ringWF (popPCMData testAudioState 2).2) :=
  ⟨by decide, C8_ring_push_pop_bounds testAudioState [1, 2, 3] 2 (by decide)⟩

/-- Characterization of the two-chunk ring write of pushPCMData: the k
positions of the write window receive the first k data bytes and every
other position keeps its byte. -/
theorem ringWrite_spec (buf data buf2 : List ℕ) (c w k first : ℕ)
    (hc : 0 < c) (hbuf : buf.length = c) (hk1 : k ≤ data.length)
    (hk2 : k ≤ c) (hfirst : first = min k (c - w % c))
    (hbuf2 : buf2 = copyInto (copyInto buf (w % c) (data.take first)) 0
      ((data.drop first).take (k - first))) :
    buf2.length = c ∧
    (∀ i, i < k → buf2[(w + i) % c]? = data[i]?) ∧
    (∀ p, p < c → (∀ i, i < k → p ≠ (w + i) % c) → buf2[p]? = buf[p]?) := by
  subst hbuf2
  have hwmod : w % c < c := Nat.mod_lt _ hc
  have hlen1 : (data.take first).length = first := by
    rw [List.length_take]
    omega
  have hlen2 : ((data.drop first).take (k - first)).length = k - first := by
    rw [List.length_take, List.length_drop]
    omega
  have hbuf1len : (copyInto buf (w % c) (data.take first)).length = c := by
    rw [copyInto_length, hbuf]
  refine ⟨?_, ?_, ?_⟩
  · rw [copyInto_length, hbuf1len]
  · intro i hi
    by_cases hif : i < first
    · have hmod : (w + i) % c = w % c + i :=
        mod_add_of_lt _ _ _ (by omega)
      rw [hmod]
      rw [copyInto_getElem?_ge _ _ _ _ (by rw [hlen2]; omega)]
      have hat := copyInto_getElem?_at (data.take first) buf (w % c) i
        (by rw [hlen1]; omega) (by rw [hlen1, hbuf]; omega)
      rw [hat, List.getElem?_take, if_pos hif]
    · have hfirst_eq : first = c - w % c := by omega
      have hmod : (w + i) % c = w % c + i - c :=
        mod_add_of_ge _ _ _ hc (by omega) (by omega)
      have hidx : w % c + i - c = i - first := by omega
      rw [hmod, hidx]
      have hat := copyInto_getElem?_at ((data.drop first).take (k - first))
        (copyInto buf (w % c) (data.take first)) 0 (i - first)
        (by rw [hlen2]; omega) (by rw [hlen2, hbuf1len]; omega)
      rw [Nat.zero_add] at hat
      rw [hat, List.getElem?_take, if_pos (by omega), List.getElem?_drop]
      congr 1
      omega
  · intro p hp hnot
    have hp_second : k - first ≤ p := by
      by_contra hcon
      push_neg at hcon
      have hf_eq : first = c - w % c := by omega
      have hmod := mod_add_of_ge w (first + p) c hc (by omega) (by omega)
      exact hnot (first + p) (by omega) (by omega)
    have hp_first : p < w % c ∨ w % c + first ≤ p := by
      by_contra hcon
      push_neg at hcon
      obtain ⟨h1, h2⟩ := hcon
      have hmod := mod_add_of_lt w (p - w % c) c (by omega)
      exact hnot (p - w % c) (by omega) (by omega)
    rw [copyInto_getElem?_ge _ _ _ _ (by rw [hlen2]; omega)]
    rcases hp_first with h | h
    · exact copyInto_getElem?_lt _ _ _ _ h
    · exact copyInto_getElem?_ge _ _ _ _ (by rw [hlen1]; omega)

/-- pushPCMData appends the accepted prefix of the pushed data to the
abstract ring queue and preserves the ring invariant. -/
theorem pushPCMData_spec (s : AudioState) (data : List ℕ) (hwf : ringWF s) :
    ringWF (pushPCMData s data).2 ∧
    ringQueue (pushPCMData s data).2 =
      ringQueue s ++ data.take (pushPCMData s data).1 := by
  obtain ⟨hlen, hrw, hwc⟩ := hwf
  have hoccs : occupancy s = s.pcm_ring_write - s.pcm_ring_read := rfl
  unfold pushPCMData
  simp only []
  split_ifs with hA hB
  · exact ⟨⟨hlen, hrw, hwc⟩, by simp⟩
  · exact ⟨⟨hlen, hrw, hwc⟩, by simp⟩
  · have hc : 0 < s.pcm_ring_cap := by
      rcases Nat.eq_zero_or_pos s.pcm_ring_cap with h | h
      · exact absurd (Or.inr h) hA
      · exact h
    set k := min data.length
      (s.pcm_ring_cap - (s.pcm_ring_write - s.pcm_ring_read)) with hk
    obtain ⟨hb2len, hwrite, huntouched⟩ := ringWrite_spec s.pcm_ring_buf data
      _ s.pcm_ring_cap s.pcm_ring_write k
      (min k (s.pcm_ring_cap - s.pcm_ring_write % s.pcm_ring_cap))
      hc hlen (by omega) (by omega) rfl rfl
    refine ⟨⟨?_, ?_, ?_⟩, ?_⟩
    · show (copyInto _ _ _).length = s.pcm_ring_cap
      exact hb2len
    · show s.pcm_ring_read ≤ s.pcm_ring_write + k
      omega
    · show s.pcm_ring_write + k ≤ s.pcm_ring_read + s.pcm_ring_cap
      omega
    apply List.ext_getElem?
    intro n
    rw [ringQueue_getElem?, List.getElem?_append, ringQueue_length,
      ringQueue_getElem?]
    simp only [occupancy]
    by_cases hn1 : n < s.pcm_ring_write + k - s.pcm_ring_read
    · rw [if_pos hn1]
      by_cases hn2 : n < s.pcm_ring_write - s.pcm_ring_read
      · rw [if_pos hn2, if_pos hn2]
        congr 1
        rw [List.getD_eq_getElem?_getD, List.getD_eq_getElem?_getD,
          huntouched _ (Nat.mod_lt _ hc) ?_]
        intro i hi
        exact mod_ne_of_between (s.pcm_ring_read + n) (s.pcm_ring_write + i)
          s.pcm_ring_cap (by omega) (by omega)
      · rw [if_neg hn2, List.getElem?_take,
          if_pos (show n - (s.pcm_ring_write - s.pcm_ring_read) < k by omega)]
        have hrn : s.pcm_ring_read + n =
            s.pcm_ring_write + (n - (s.pcm_ring_write - s.pcm_ring_read)) := by
          omega
        rw [hrn, List.getD_eq_getElem?_getD, hwrite _ (by omega),
          List.getElem?_eq_getElem
            (show n - (s.pcm_ring_write - s.pcm_ring_read) < data.length
              by omega)]
        rfl
    · rw [if_neg hn1]
      rw [if_neg (show ¬n < s.pcm_ring_write - s.pcm_ring_read by omega),
        List.getElem?_take,
        if_neg (show ¬n - (s.pcm_ring_write - s.pcm_ring_read) < k by omega)]

/-- popPCMData returns the first min(requested, occupancy) bytes of the
abstract ring queue, removes exactly them, and preserves the ring
invariant. -/
theorem popPCMData_spec (s : AudioState) (n : ℕ) (hwf : ringWF s) :
    ringWF (popPCMData s n).2 ∧
    (popPCMData s n).1 = (ringQueue s).take n ∧
    ringQueue (popPCMData s n).2 = (ringQueue s).drop n := by
  obtain ⟨hlen, hrw, hwc⟩ := hwf
  have hoccs : occupancy s = s.pcm_ring_write - s.pcm_ring_read := rfl
  have hqempty : occupancy s = 0 → ringQueue s = [] := by
    intro h
    unfold ringQueue
    rw [h]
    rfl
  unfold popPCMData
  simp only []
  split_ifs with hA hB
  · refine ⟨⟨hlen, hrw, hwc⟩, ?_, ?_⟩
    · rcases hA with h | h
      · rw [h]
        simp
      · rw [hqempty (by omega)]
        simp
    · show ringQueue s = (ringQueue s).drop n
      rcases hA with h | h
      · rw [h]
        simp
      · rw [hqempty (by omega)]
        simp
  · refine ⟨⟨hlen, hrw, hwc⟩, ?_, ?_⟩
    · rw [hqempty (by omega)]
      simp
    · show ringQueue s = (ringQueue s).drop n
      rw [hqempty (by omega)]
      simp
  · have hc : 0 < s.pcm_ring_cap := by
      rcases Nat.eq_zero_or_pos s.pcm_ring_cap with h | h
      · exact absurd (Or.inr h) hA
      · exact h
    have hm0 : s.pcm_ring_read % s.pcm_ring_cap < s.pcm_ring_cap :=
      Nat.mod_lt _ hc
    set k := min n (s.pcm_ring_write - s.pcm_ring_read) with hk
    set f1 := min k (s.pcm_ring_cap - s.pcm_ring_read % s.pcm_ring_cap)
      with hf1
    refine ⟨⟨?_, ?_, ?_⟩, ?_, ?_⟩
    · show s.pcm_ring_buf.length = s.pcm_ring_cap
      exact hlen
    · show s.pcm_ring_read + k ≤ s.pcm_ring_write
      omega
    · show s.pcm_ring_write ≤ s.pcm_ring_read + k + s.pcm_ring_cap
      omega
    · apply List.ext_getElem?
      intro m
      conv_rhs => rw [List.getElem?_take, ringQueue_getElem?]
      conv_lhs => rw [List.getElem?_append]
      simp only [occupancy, List.length_take, List.length_drop, hlen]
      by_cases hm : m < k
      · by_cases hmf : m < f1
        · rw [if_pos (show m <
              min f1 (s.pcm_ring_cap - s.pcm_ring_read % s.pcm_ring_cap)
              by omega)]
          rw [List.getElem?_take, if_pos hmf, List.getElem?_drop]
          rw [if_pos (show m < n by omega),
            if_pos (show m < s.pcm_ring_write - s.pcm_ring_read by omega)]
          rw [mod_add_of_lt s.pcm_ring_read m s.pcm_ring_cap (by omega)]
          rw [List.getD_eq_getElem s.pcm_ring_buf 0
              (show s.pcm_ring_read % s.pcm_ring_cap + m <
                s.pcm_ring_buf.length by omega),
            List.getElem?_eq_getElem
              (show s.pcm_ring_read % s.pcm_ring_cap + m <
                s.pcm_ring_buf.length by omega)]
        · have hf1eq : f1 = s.pcm_ring_cap - s.pcm_ring_read % s.pcm_ring_cap := by
            omega
          rw [if_neg (show ¬m <
              min f1 (s.pcm_ring_cap - s.pcm_ring_read % s.pcm_ring_cap)
              by omega)]
          rw [List.getElem?_take,
            if_pos (show m - min f1
              (s.pcm_ring_cap - s.pcm_ring_read % s.pcm_ring_cap) < k - f1
              by omega)]
          rw [if_pos (show m < n by omega),
            if_pos (show m < s.pcm_ring_write - s.pcm_ring_read by omega)]
          rw [mod_add_of_ge s.pcm_ring_read m s.pcm_ring_cap hc (by omega)
            (by omega)]
          have hidx : s.pcm_ring_read % s.pcm_ring_cap + m - s.pcm_ring_cap =
              m - min f1 (s.pcm_ring_cap - s.pcm_ring_read % s.pcm_ring_cap) := by
            omega
          rw [hidx]
          rw [List.getD_eq_getElem s.pcm_ring_buf 0 (by omega),
            List.getElem?_eq_getElem (by omega)]
      · rw [if_neg (show ¬m <
            min f1 (s.pcm_ring_cap - s.pcm_ring_read % s.pcm_ring_cap)
            by omega)]
        rw [List.getElem?_take,
          if_neg (show ¬m - min f1
            (s.pcm_ring_cap - s.pcm_ring_read % s.pcm_ring_cap) < k - f1
            by omega)]
        by_cases hmn : m < n
        · rw [if_pos hmn,
            if_neg (show ¬m < s.pcm_ring_write - s.pcm_ring_read by omega)]
        · rw [if_neg hmn]
    · apply List.ext_getElem?
      intro j
      rw [ringQueue_getElem?, List.getElem?_drop, ringQueue_getElem?]
      simp only [occupancy]
      by_cases hj : j < s.pcm_ring_write - (s.pcm_ring_read + k)
      · rw [if_pos hj,
          if_pos (show n + j < s.pcm_ring_write - s.pcm_ring_read by omega)]
        have hadd : s.pcm_ring_read + k + j = s.pcm_ring_read + (n + j) := by
          omega
        rw [hadd]
      · rw [if_neg hj,
          if_neg (show ¬n + j < s.pcm_ring_write - s.pcm_ring_read by omega)]

/-- The operations a client can interleave on the PCM ring. -/
inductive RingOp
  | push (data : List ℕ)
  | pop (n : ℕ)
deriving DecidableEq, Repr

/-- Run a sequence of ring operations; returns the concatenation of the
bytes accepted by the pushes, the concatenation of the bytes returned by
the pops, and the final state. -/
def runOps (s : AudioState) : List RingOp → List ℕ × List ℕ × AudioState
  | [] => ([], [], s)
  | RingOp.push data :: rest =>
      let r := pushPCMData s data
      let t := runOps r.2 rest
      (data.take r.1 ++ t.1, t.2.1, t.2.2)
  | RingOp.pop n :: rest =>
      let r := popPCMData s n
      let t := runOps r.2 rest
      (t.1, r.1 ++ t.2.1, t.2.2)

/-- Trace invariant: the popped bytes followed by the bytes still in the
ring equal the initial ring contents followed by the accepted bytes. -/
theorem runOps_invariant (ops : List RingOp) : ∀ (s : AudioState), ringWF s →
    ringWF (runOps s ops).2.2 ∧
    (runOps s ops).2.1 ++ ringQueue (runOps s ops).2.2 =
      ringQueue s ++ (runOps s ops).1 := by
  induction ops with
  | nil =>
      intro s hwf
      exact ⟨hwf, by simp [runOps]⟩
  | cons op rest ih =>
      intro s hwf
      cases op with
      | push data =>
          obtain ⟨hwf2, hq⟩ := pushPCMData_spec s data hwf
          obtain ⟨hwfF, hinv⟩ := ih (pushPCMData s data).2 hwf2
          rw [runOps]
          simp only []
          refine ⟨hwfF, ?_⟩
          rw [hinv, hq, List.append_assoc]
      | pop n =>
          obtain ⟨hwf2, hout, hq⟩ := popPCMData_spec s n hwf
          obtain ⟨hwfF, hinv⟩ := ih (popPCMData s n).2 hwf2
          rw [runOps]
          simp only []
          refine ⟨hwfF, ?_⟩
          rw [List.append_assoc, hinv, hq, hout, ← List.append_assoc,
            List.take_append_drop]

/-- Claim C9: the PCM ring is a content-faithful FIFO refining an
unbounded byte queue: starting from an empty well-formed ring, for every
interleaved sequence of pushes and pops the bytes returned by the pops,
concatenated in order, followed by the bytes still held in the ring, are
exactly the bytes accepted by the pushes in order; in particular the
popped concatenation is a prefix of the accepted concatenation. -/
theorem C9_ring_fifo_refinement (s : AudioState) (ops : List RingOp)
    (hwf : ringWF s) (hempty : s.pcm_ring_read = s.pcm_ring_write) :
    (runOps s ops).2.1 ++ ringQueue (runOps s ops).2.2 = (runOps s ops).1 ∧
    ∃ rest, (runOps s ops).1 = (runOps s ops).2.1 ++ rest := by
  have hq0 : ringQueue s = [] := by
    unfold ringQueue occupancy
    rw [hempty]
    simp
  obtain ⟨-, hinv⟩ := runOps_invariant ops s hwf
  rw [hq0, List.nil_append] at hinv
  exact ⟨hinv, ⟨ringQueue (runOps s ops).2.2, hinv.symm⟩⟩

/-- Witness for C9: a concrete interleaving of pushes and pops on the
empty eight-byte test ring. -/
theorem C9_ring_fifo_refinement_witness :
    ringWF testAudioState ∧
    testAudioState.pcm_ring_read = testAudioState.pcm_ring_write ∧
    ((runOps testAudioState
        [RingOp.push [1, 2, 3], RingOp.pop 2, RingOp.push [4, 5],
         RingOp.pop 10]).2.1 ++
      ringQueue (runOps testAudioState
        [RingOp.push [1, 2, 3], RingOp.pop 2, RingOp.push [4, 5],
         RingOp.pop 10]).2.2 =
      (runOps testAudioState
        [RingOp.push [1, 2, 3], RingOp.pop 2, RingOp.push [4, 5],
         RingOp.pop 10]).1 ∧
     ∃ rest, (runOps testAudioState
        [RingOp.push [1, 2, 3], RingOp.pop 2, RingOp.push [4, 5],
         RingOp.pop 10]).1 =
      (runOps testAudioState
        [RingOp.push [1, 2, 3], RingOp.pop 2, RingOp.push [4, 5],
         RingOp.pop 10]).2.1 ++ rest) :=
  ⟨by decide, by decide,
    C9_ring_fifo_refinement testAudioState
      [RingOp.push [1, 2, 3], RingOp.pop 2, RingOp.push [4, 5],
       RingOp.pop 10] (by decide) (by decide)⟩

/-! ### Seek convergence (StreamSource::seek, stream_source.cpp lines
357-463, claim C5) -/

/-- A packet as the seek loop sees it: its stream index, whether the
decoder accepts it, and the decoded frames it yields, each carrying an
optional rescaled PTS in microseconds (none models AV_NOPTS_VALUE). -/
structure SeekPacket where
  stream_index : ℤ
  decode_ok : Bool
  frames : List (Option ℤ)
deriving DecidableEq, Repr

/-- The inner receive loop of StreamSource::seek (stream_source.cpp
lines 406-459): frames without a valid PTS are skipped, a frame with
PTS at or after the target is queued and counted, and the fifth queued
frame ends the whole seek successfully.  (The push goes through
pushFrameToQueue onto the queue cleared at line 378; at most five
frames are pushed, far below both capacities, so no push can drop.)
Returns the queue, the counter, and whether five frames were reached. -/
def seekFrames (target : ℤ) :
    List (Option ℤ) → List ℤ → ℕ → List ℤ × ℕ × Bool
  | [], queued, cnt => (queued, cnt, false)
  | none :: rest, queued, cnt => seekFrames target rest queued cnt
  | some pts :: rest, queued, cnt =>
      if target ≤ pts then
        if 5 ≤ cnt + 1 then (queued ++ [pts], cnt + 1, true)
        else seekFrames target rest (queued ++ [pts]) (cnt + 1)
      else seekFrames target rest queued cnt

/-- The packet loop of StreamSource::seek (stream_source.cpp lines
383-461): packets of other streams are skipped, a decoder submission
error aborts the seek with failure, and an exhausted demuxer ends the
seek successfully with whatever was queued. -/
def seekPackets (target si : ℤ) :
    List SeekPacket → List ℤ → ℕ → Option (List ℤ)
  | [], queued, _ => some queued
  | p :: rest, queued, cnt =>
      if p.stream_index ≠ si then seekPackets target si rest queued cnt
      else if p.decode_ok = false then none
      else
        let r := seekFrames target p.frames queued cnt
        if r.2.2 then some r.1 else seekPackets target si rest r.1 r.2.1

/-- StreamSource::seek (stream_source.cpp lines 357-463): reject a
target outside [0, duration] (line 359), then decode forward from the
seek point, discarding frames before the target, until five frames at
or after the target are queued or the stream ends.  The result is the
queued frame list on success. -/
def StreamSource.seek (target duration si : ℤ)
    (packets : List SeekPacket) : Option (List ℤ) :=
  if target < 0 ∨ duration < target then none
  else seekPackets target si packets [] 0

/-- The frames of one packet eligible for queueing: valid PTS at or
after the target. -/
def eligOf (target : ℤ) (frames : List (Option ℤ)) : List ℤ :=
  frames.filterMap (fun o =>
    o.bind (fun pts => if target ≤ pts then some pts else none))

/-- All frames the seek loop may queue, in stream order. -/
def eligibleFrames (target si : ℤ) (packets : List SeekPacket) : List ℤ :=
  packets.flatMap (fun p =>
    if p.stream_index = si then eligOf target p.frames else [])

/-- Every eligible frame is at or after the target. -/
theorem eligOf_mem (target : ℤ) (frames : List (Option ℤ)) (p : ℤ)
    (hp : p ∈ eligOf target frames) : target ≤ p := by
  unfold eligOf at hp
  rw [List.mem_filterMap] at hp
  obtain ⟨o, -, ho⟩ := hp
  cases o with
  | none => simp at ho
  | some pts =>
      rw [Option.some_bind] at ho
      by_cases h : target ≤ pts
      · rw [if_pos h] at ho
        exact (Option.some.inj ho) ▸ h
      · rw [if_neg h] at ho
        simp at ho

/-- Behaviour of the inner frame loop: the counter tracks the queue
length; on early success the queue gained exactly the first 5 - cnt
eligible frames, on fall-through it gained all eligible frames and
stayed below five. -/
theorem seekFrames_spec (target : ℤ) (frames : List (Option ℤ)) :
    ∀ (queued : List ℤ) (cnt : ℕ), cnt = queued.length → cnt < 5 →
    (seekFrames target frames queued cnt).2.1 =
      (seekFrames target frames queued cnt).1.length ∧
    ((seekFrames target frames queued cnt).2.2 = true →
      (seekFrames target frames queued cnt).1 =
        queued ++ (eligOf target frames).take (5 - cnt) ∧
      (seekFrames target frames queued cnt).1.length = 5) ∧
    ((seekFrames target frames queued cnt).2.2 = false →
      (seekFrames target frames queued cnt).1 =
        queued ++ eligOf target frames ∧
      (seekFrames target frames queued cnt).1.length < 5) := by
  induction frames with
  | nil =>
      intro queued cnt hc hlt
      refine ⟨hc, ?_, ?_⟩
      · intro hdone
        simp [seekFrames] at hdone
      · intro _
        refine ⟨by simp [seekFrames, eligOf], ?_⟩
        simp only [seekFrames]
        omega
  | cons o rest ih =>
      intro queued cnt hc hlt
      cases o with
      | none =>
          rw [seekFrames]
          have helig : eligOf target (none :: rest) = eligOf target rest := by
            simp [eligOf]
          rw [helig]
          exact ih queued cnt hc hlt
      | some pts =>
          rw [seekFrames]
          by_cases hp : target ≤ pts
          · rw [if_pos hp]
            have helig : eligOf target (some pts :: rest) =
                pts :: eligOf target rest := by
              simp [eligOf, hp]
            rw [helig]
            by_cases h5 : 5 ≤ cnt + 1
            · rw [if_pos h5]
              refine ⟨by simp [hc], ?_, ?_⟩
              · intro _
                refine ⟨?_, ?_⟩
                · have h51 : 5 - cnt = 1 := by omega
                  rw [h51]
                  simp
                · rw [List.length_append]
                  simp
                  omega
              · intro hfalse
                simp at hfalse
            · rw [if_neg h5]
              obtain ⟨i1, i2, i3⟩ := ih (queued ++ [pts]) (cnt + 1)
                (by simp [hc]) (by omega)
              refine ⟨i1, ?_, ?_⟩
              · intro hdone
                obtain ⟨e1, e2⟩ := i2 hdone
                refine ⟨?_, e2⟩
                rw [e1, List.append_assoc]
                congr 1
                have h51 : 5 - cnt = (5 - (cnt + 1)) + 1 := by omega
                rw [h51]
                rfl
              · intro hfalse
                obtain ⟨e1, e2⟩ := i3 hfalse
                refine ⟨?_, e2⟩
                rw [e1, List.append_assoc]
                rfl
          · rw [if_neg hp]
            have helig : eligOf target (some pts :: rest) =
                eligOf target rest := by
              simp [eligOf, hp]
            rw [helig]
            exact ih queued cnt hc hlt

/-- Behaviour of the packet loop: a successful seek returns either the
first 5 - cnt remaining eligible frames appended to the queue (five
total), or, when the stream ended first, every remaining eligible
frame with fewer than five total. -/
theorem seekPackets_spec (target si : ℤ) (packets : List SeekPacket) :
    ∀ (queued : List ℤ) (cnt : ℕ) (q : List ℤ),
    cnt = queued.length → cnt < 5 →
    seekPackets target si packets queued cnt = some q →
    (q = queued ++ (eligibleFrames target si packets).take (5 - cnt) ∧
      q.length = 5) ∨
    (q = queued ++ eligibleFrames target si packets ∧ q.length < 5) := by
  induction packets with
  | nil =>
      intro queued cnt q hc hlt hq
      rw [seekPackets] at hq
      obtain rfl := Option.some.inj hq
      right
      exact ⟨by simp [eligibleFrames], by omega⟩
  | cons p rest ih =>
      intro queued cnt q hc hlt hq
      rw [seekPackets] at hq
      by_cases hsi : p.stream_index = si
      · rw [if_neg (show ¬p.stream_index ≠ si from fun hh => hh hsi)] at hq
        by_cases hok : p.decode_ok = true
        · rw [if_neg (show ¬p.decode_ok = false by simp [hok])] at hq
          simp only [] at hq
          have helig : eligibleFrames target si (p :: rest) =
              eligOf target p.frames ++ eligibleFrames target si rest := by
            simp [eligibleFrames, hsi]
          rw [helig]
          obtain ⟨f1, f2, f3⟩ := seekFrames_spec target p.frames queued cnt
            hc hlt
          by_cases hdone : (seekFrames target p.frames queued cnt).2.2 = true
          · rw [if_pos hdone] at hq
            obtain rfl := Option.some.inj hq
            obtain ⟨e1, e2⟩ := f2 hdone
            left
            refine ⟨?_, e2⟩
            rw [e1]
            congr 1
            rw [List.take_append_eq_append_take]
            have hlen5 : 5 - cnt ≤ (eligOf target p.frames).length := by
              rw [e1, List.length_append, List.length_take] at e2
              omega
            have hz : 5 - cnt - (eligOf target p.frames).length = 0 := by
              omega
            rw [hz, List.take_zero, List.append_nil]
          · rw [if_neg hdone] at hq
            rw [Bool.not_eq_true] at hdone
            obtain ⟨e1, e2⟩ := f3 hdone
            have hlen_eq : (seekFrames target p.frames queued cnt).1.length =
                queued.length + (eligOf target p.frames).length := by
              rw [e1, List.length_append]
            rcases ih (seekFrames target p.frames queued cnt).1
                (seekFrames target p.frames queued cnt).2.1 q f1
                (by rw [f1]; exact e2) hq with ⟨g1, g2⟩ | ⟨g1, g2⟩
            · left
              refine ⟨?_, g2⟩
              rw [g1, e1, List.append_assoc]
              congr 1
              rw [List.take_append_eq_append_take]
              congr 1
              · exact (List.take_of_length_le (by omega)).symm
              · congr 1
                rw [f1, hlen_eq]
                omega
            · right
              refine ⟨?_, g2⟩
              rw [g1, e1, List.append_assoc]
        · rw [Bool.not_eq_true] at hok
          rw [if_pos hok] at hq
          simp at hq
      · rw [if_pos hsi] at hq
        have helig : eligibleFrames target si (p :: rest) =
            eligibleFrames target si rest := by
          simp [eligibleFrames, hsi]
        rw [helig]
        exact ih queued cnt q hc hlt hq

/-- Claim C5: for a target within [0, duration], if StreamSource::seek
returns success then every frame it queued has PTS at or after the
target, and either at least five such frames were queued or the stream
ended first, having supplied exactly the eligible frames it had. -/
theorem C5_seek_convergence (target duration si : ℤ)
    (packets : List SeekPacket) (q : List ℤ)
    (h0 : 0 ≤ target) (h1 : target ≤ duration)
    (h : StreamSource.seek target duration si packets = some q) :
    (∀ p ∈ q, target ≤ p) ∧
    (5 ≤ q.length ∨ q = eligibleFrames target si packets) := by
  unfold StreamSource.seek at h
  rw [if_neg (show ¬(target < 0 ∨ duration < target) by omega)] at h
  have hmem : ∀ p ∈ eligibleFrames target si packets, target ≤ p := by
    intro p hp
    unfold eligibleFrames at hp
    rw [List.mem_flatMap] at hp
    obtain ⟨pk, -, hpk⟩ := hp
    by_cases hidx : pk.stream_index = si
    · rw [if_pos hidx] at hpk
      exact eligOf_mem target pk.frames p hpk
    · rw [if_neg hidx] at hpk
      simp at hpk
  rcases seekPackets_spec target si packets [] 0 q rfl (by omega) h with
    ⟨e1, e2⟩ | ⟨e1, e2⟩
  · refine ⟨?_, Or.inl (by omega)⟩
    intro p hp
    rw [e1, List.nil_append] at hp
    exact hmem p (List.mem_of_mem_take hp)
  · refine ⟨?_, Or.inr (by rw [e1, List.nil_append])⟩
    intro p hp
    rw [e1, List.nil_append] at hp
    exact hmem p hp

/-- A concrete packet stream for the C5 witness: two packets of stream
0 around the target plus one foreign packet. -/
def seekTestPackets : List SeekPacket :=
  [⟨0, true, [some 50, none, some 120, some 130]⟩,
   ⟨1, true, [some 999]⟩,
   ⟨0, true, [some 140, some 150, some 160]⟩]

/-- Witness for C5: target 100 on stream 0; frame 50 is discarded, the
foreign packet is skipped, and the five frames 120..160 are queued. -/
theorem C5_seek_convergence_witness :
    (0 : ℤ) ≤ 100 ∧ (100 : ℤ) ≤ 1000 ∧
    StreamSource.seek 100 1000 0 seekTestPackets =
      some [120, 130, 140, 150, 160] ∧
    ((∀ p ∈ ([120, 130, 140, 150, 160] : List ℤ), (100 : ℤ) ≤ p) ∧
     (5 ≤ ([120, 130, 140, 150, 160] : List ℤ).length ∨
      ([120, 130, 140, 150, 160] : List ℤ) =
        eligibleFrames 100 0 seekTestPackets)) :=
  ⟨by norm_num, by norm_num, by decide,
    C5_seek_convergence 100 1000 0 seekTestPackets [120, 130, 140, 150, 160]
      (by norm_num) (by norm_num) (by decide)⟩

end RTAV
